import Mathlib

/-!
Shallow embedding of the `pocket` library's fixed-point Money engine
(`money.go`, `safe_math.go`) and proofs about it.

Go's `int64` is modelled as `Int` together with an explicit two's-complement
wrap `wrap64` applied wherever the Go source performs machine arithmetic
that can overflow.  Go's truncating division `/` and remainder `%` on
`int64` are `Int.tdiv` and `Int.tmod` (both round toward zero, the
remainder carries the dividend's sign — exactly Go's semantics).
Fallible Go functions (returning `(T, error)`) become `Option`.
-/

namespace Pocket

/-- `math.MinInt64`. -/
def int64Min : Int := -9223372036854775808

/-- `math.MaxInt64`. -/
def int64Max : Int := 9223372036854775807

/-- Two's-complement wrap-around to the int64 range, i.e. reduction of the
mathematical result modulo `2^64` into `[-2^63, 2^63)`.  This is what Go's
`int64` arithmetic does on overflow. -/
def wrap64 (x : Int) : Int :=
  (x + 9223372036854775808) % 18446744073709551616 - 9223372036854775808

/-- `TrySafeAdd` from `safe_math.go`, instantiated at `T = int64`.
`result := a + b` wraps; the sign checks are the source's. -/
def TrySafeAdd (a b : Int) : Option Int :=
  let result := wrap64 (a + b)
  if 0 < a ∧ 0 < b ∧ result < 0 then none
  else if a < 0 ∧ b < 0 ∧ 0 < result then none
  else some result

/-- `TrySafeSub` from `safe_math.go`, instantiated at `T = int64`. -/
def TrySafeSub (a b : Int) : Option Int :=
  let result := wrap64 (a - b)
  if 0 < a ∧ b < 0 ∧ result < 0 then none
  else if a < 0 ∧ 0 < b ∧ 0 < result then none
  else some result

/-- `TrySafeMul` from `safe_math.go`, instantiated at `T = int64`.
`result := a * b` wraps; the three sign-consistency checks are the source's. -/
def TrySafeMul (a b : Int) : Option Int :=
  let result := wrap64 (a * b)
  if 0 < a ∧ 0 < b ∧ result < 0 then none
  else if a < 0 ∧ b < 0 ∧ result < 0 then none
  else if (0 < a ∧ b < 0 ∧ 0 < result) ∨ (a < 0 ∧ 0 < b ∧ 0 < result) then none
  else some result

/-- `TrySafeDiv` from `safe_math.go`, instantiated at `T = int64`.
The guard excludes the single overflowing case `MinInt64 / -1`, so the
division itself never wraps for in-range operands. -/
def TrySafeDiv (a b : Int) : Option Int :=
  if b = 0 then none
  else if a = int64Min ∧ b = -1 then none
  else some (Int.tdiv a b)

/-- The `Money` struct from `money.go`.  `amount` is an `int64` (held as an
`Int`, kept in range by the constructors), `precision` a Go `int`. -/
structure Money where
  amount : Int
  currency : String
  precision : Int
  initialized : Bool
  deriving Repr, DecidableEq

/-- Go's zero value `Money{}`. -/
def defaultMoney : Money :=
  { amount := 0, currency := "", precision := 0, initialized := false }

/-- `NewUSD` from `money.go`. -/
def NewUSD (amount : Int) : Money :=
  { amount := amount, currency := "USD", precision := 2, initialized := true }

/-- `NewARS` from `money.go`. -/
def NewARS (amount : Int) : Money :=
  { amount := amount, currency := "ARS", precision := 2, initialized := true }

/-- `NewMoney` from `money.go`. -/
def NewMoney (amount : Int) (currency : String) (precision : Int) : Option Money :=
  if precision < 0 then none
  else if 8 < precision then none
  else some { amount := amount, currency := currency, precision := precision, initialized := true }

/-- The character for decimal digit `d ∈ [0, 9]`. -/
def digitChar (d : Nat) : Char := Char.ofNat (48 + d)

/-- Fuel-indexed core of decimal rendering (structural recursion, so that the
kernel can evaluate it); fuel `n + 1` always suffices for `n`. -/
def natDigitsCore : Nat → Nat → List Char → List Char
  | 0, _, acc => acc
  | fuel + 1, n, acc =>
    if n < 10 then digitChar n :: acc
    else natDigitsCore fuel (n / 10) (digitChar (n % 10) :: acc)

/-- The decimal digits of `n`, most significant first, as Go's `%d` verb
prints a non-negative integer (no sign, no padding, `0` prints as "0"). -/
def natDigits (n : Nat) : List Char := natDigitsCore (n + 1) n []

/-- Go's `%d` verb on an `int64`: a minus sign for negatives, then the
decimal digits of the absolute value. -/
def intChars (i : Int) : List Char :=
  if i < 0 then '-' :: natDigits i.natAbs else natDigits i.natAbs

/-- Go's zero-padding `%0*d` for a non-negative value already rendered as
`s`: left-pad with '0' to width `w` (no-op when `s` is at least that wide). -/
def zeroPad (w : Nat) (s : List Char) : List Char :=
  List.replicate (w - s.length) '0' ++ s

/-- `Money.String` from `money.go`.  The `divisor` loop multiplies 1 by 10
`precision` times, which is exactly `10 ^ precision` (constructed values have
`precision ≤ 8`, so the loop never overflows); the negation `-m.amount` in
the first branch's guard is a Go int64 negation and wraps at `MinInt64`.
Go's `%0*d` with value 0 and width `precision` prints `precision` zeros. -/
def Money.String (m : Money) : String :=
  if m.initialized = false then ""
  else if m.precision = 0 then String.mk (intChars m.amount)
  else
    let divisor : Int := 10 ^ m.precision.toNat
    if m.amount < 0 ∧ wrap64 (-m.amount) < divisor then
      String.mk (intChars m.amount ++ '.' :: zeroPad m.precision.toNat (natDigits 0))
    else if 0 ≤ m.amount ∧ m.amount < divisor then
      String.mk (intChars m.amount ++ '.' :: zeroPad m.precision.toNat (natDigits 0))
    else
      let major := Int.tdiv m.amount divisor
      let minor := Int.tmod m.amount divisor
      let minor := if minor < 0 then wrap64 (-minor) else minor
      String.mk (intChars major ++ '.' :: zeroPad m.precision.toNat (natDigits minor.toNat))

/-- `Money.Format` from `money.go`: `"<String()> <currency>"` (the return
type is `Pocket.Money.String`'s codomain, a string). -/
def Money.Format (m : Money) :=
  if m.initialized = false then ""
  else m.String ++ " " ++ m.currency

/-- Prepend a character to the first part of a split (the split of a
non-empty suffix is never `[]`, so the first arm is unreachable). -/
def consHead (x : Char) : List (List Char) → List (List Char)
  | [] => [[x]]
  | r :: rs => (x :: r) :: rs

/-- Go's `strings.Split` for a one-character separator, over the rune list:
a string with `k` occurrences of `c` yields `k + 1` (possibly empty) parts. -/
def splitOnChar (c : Char) : List Char → List (List Char)
  | [] => [[]]
  | x :: xs =>
    if x = c then [] :: splitOnChar c xs
    else consHead x (splitOnChar c xs)

/-- Helper for `strconv.ParseInt`: reads decimal digits left to right onto the
accumulator; fails at the first non-digit character. -/
def digitsToNatAux : List Char → Nat → Option Nat
  | [], acc => some acc
  | c :: cs, acc =>
    if '0' ≤ c ∧ c ≤ '9' then digitsToNatAux cs (acc * 10 + (c.toNat - 48))
    else none

/-- `strconv.ParseInt(s, 10, 64)`: an optional sign, then one or more decimal
digits; fails on an empty (or sign-only) input, on a non-digit character, and
when the value falls outside the int64 range (the negative cutoff is
`2^63`, the positive one `2^63 - 1`). -/
def ParseInt64 (s : List Char) : Option Int :=
  match s with
  | [] => none
  | c :: rest =>
    if c = '-' then
      match rest, digitsToNatAux rest 0 with
      | _ :: _, some n =>
        if (n : Int) ≤ 9223372036854775808 then some (-(n : Int)) else none
      | _, _ => none
    else if c = '+' then
      match rest, digitsToNatAux rest 0 with
      | _ :: _, some n => if (n : Int) ≤ int64Max then some (n : Int) else none
      | _, _ => none
    else
      match digitsToNatAux (c :: rest) 0 with
      | some n => if (n : Int) ≤ int64Max then some (n : Int) else none
      | none => none

/-- `NewMoneyFromString` from `money.go`.  `strings.ToUpper` is modelled by
`Char.toUpper` over the runes (the repository only uses ASCII currency
codes); `int64(math.Pow10(precision))` is exactly `10 ^ precision` for the
`precision ≤ 8` admitted by the guard; the scaled-value computation
`amountInt * multiplier ± amountFrac` is unchecked Go int64 arithmetic and
wraps. -/
def NewMoneyFromString (s : String) : Option Money :=
  match splitOnChar ' ' s.data with
  | [amountCs, currencyCs] =>
    let currency := String.mk (currencyCs.map Char.toUpper)
    match splitOnChar '.' amountCs with
    | [intCs, fracCs] =>
      let precision := fracCs.length
      if 8 < precision then none
      else match ParseInt64 intCs, ParseInt64 fracCs with
        | some amountInt, some amountFrac =>
          let multiplier : Int := 10 ^ precision
          let total := wrap64 (amountInt * multiplier)
          let total :=
            if amountInt < 0 then wrap64 (total - amountFrac)
            else wrap64 (total + amountFrac)
          NewMoney total currency (precision : Int)
        | _, _ => none
    | _ => none
  | _ => none

/-- `Money.Equals` from `money.go`: amount, currency and precision all match
(the `initialized` flag is not compared). -/
def Money.Equals (m other : Money) : Bool :=
  m.amount == other.amount && m.currency == other.currency && m.precision == other.precision

/-- `Money.Plus` from `money.go`. -/
def Money.Plus (m other : Money) : Option Money :=
  if m.initialized = false ∨ other.initialized = false then none
  else if m.currency ≠ other.currency then none
  else match TrySafeAdd m.amount other.amount with
    | none => none
    | some sum => NewMoney sum m.currency m.precision

/-- `Money.Minus` from `money.go`. -/
def Money.Minus (m other : Money) : Option Money :=
  if m.initialized = false ∨ other.initialized = false then none
  else if m.currency ≠ other.currency then none
  else match TrySafeSub m.amount other.amount with
    | none => none
    | some diff => NewMoney diff m.currency m.precision

/-- `Money.Inc` from `money.go`. -/
def Money.Inc (m : Money) (amount : Int) : Option Money :=
  if m.initialized = false then none
  else match TrySafeAdd m.amount amount with
    | none => none
    | some sum => NewMoney sum m.currency m.precision

/-- `Money.Dec` from `money.go`. -/
def Money.Dec (m : Money) (amount : Int) : Option Money :=
  if m.initialized = false then none
  else match TrySafeSub m.amount amount with
    | none => none
    | some diff => NewMoney diff m.currency m.precision

/-- `Money.Times` from `money.go`. -/
def Money.Times (m : Money) (amount : Int) : Option Money :=
  if m.initialized = false then none
  else match TrySafeMul m.amount amount with
    | none => none
    | some prod => NewMoney prod m.currency m.precision

/-- `Money.DividedBy` from `money.go`.  The negations `-remainder`, `-divisor`,
the doubling `absReminder * 2` and the adjustments `quotient ± 1` are Go int64
operations and hence wrap; `wrap64` records that. -/
def Money.DividedBy (m : Money) (divisor : Int) : Option Money :=
  if m.initialized = false then none
  else match TrySafeDiv m.amount divisor with
    | none => none
    | some quotient =>
      let remainder := Int.tmod m.amount divisor
      let absReminder := if remainder < 0 then wrap64 (-remainder) else remainder
      let absDivisor := if divisor < 0 then wrap64 (-divisor) else divisor
      let rounded :=
        if absDivisor ≤ wrap64 (absReminder * 2) then
          if (0 ≤ m.amount ∧ 0 < divisor) ∨ (m.amount < 0 ∧ divisor < 0) then
            wrap64 (quotient + 1)
          else
            wrap64 (quotient - 1)
        else quotient
      NewMoney rounded m.currency m.precision

/-! ### Helper lemmas: wrapping, truncated division, splitting -/

theorem wrap64_eq_self {x : Int} (h1 : int64Min ≤ x) (h2 : x ≤ int64Max) :
    wrap64 x = x := by
  unfold wrap64
  unfold int64Min at h1
  unfold int64Max at h2
  rw [Int.emod_eq_of_lt (by omega) (by omega)]
  omega

theorem neg_tmod (a b : Int) : Int.tmod (-a) b = -Int.tmod a b := by
  rw [Int.tmod_def, Int.tmod_def, Int.neg_tdiv]
  ring

theorem natAbs_tmod_lt (a : Int) {b : Int} (hb : b ≠ 0) :
    (Int.tmod a b).natAbs < b.natAbs := by
  rcases Int.lt_or_lt_of_ne hb with hneg | hpos
  · rw [← Int.tmod_neg]
    have hpos' : 0 < -b := by omega
    rcases le_or_lt 0 a with ha | ha
    · have h1 := Int.tmod_nonneg (-b) ha
      have h2 := Int.tmod_lt_of_pos a hpos'
      omega
    · have h1 := Int.tmod_nonneg (-b) (by omega : (0:Int) ≤ -a)
      have h2 := Int.tmod_lt_of_pos (-a) hpos'
      rw [neg_tmod] at *
      omega
  · rcases le_or_lt 0 a with ha | ha
    · have h1 := Int.tmod_nonneg b ha
      have h2 := Int.tmod_lt_of_pos a hpos
      omega
    · have h1 := Int.tmod_nonneg b (by omega : (0:Int) ≤ -a)
      have h2 := Int.tmod_lt_of_pos (-a) hpos
      rw [neg_tmod] at *
      omega

theorem tmod_nonpos_of_nonpos {a : Int} (b : Int) (ha : a ≤ 0) :
    Int.tmod a b ≤ 0 := by
  have h := Int.tmod_nonneg b (by omega : (0:Int) ≤ -a)
  rw [neg_tmod] at h
  omega

theorem splitOnChar_of_not_mem {c : Char} :
    ∀ {l : List Char}, c ∉ l → splitOnChar c l = [l]
  | [], _ => rfl
  | x :: xs, h => by
    have hx : ¬ x = c := fun he => h (he ▸ List.mem_cons_self x xs)
    have ih := splitOnChar_of_not_mem (l := xs) fun hm => h (List.mem_cons_of_mem _ hm)
    rw [splitOnChar, if_neg hx, ih, consHead]

theorem splitOnChar_append {c : Char} :
    ∀ {a : List Char}, (b : List Char) → c ∉ a →
      splitOnChar c (a ++ c :: b) = a :: splitOnChar c b
  | [], b, _ => by
    simp [splitOnChar]
  | x :: xs, b, h => by
    have hx : ¬ x = c := fun he => h (he ▸ List.mem_cons_self x xs)
    have ih := splitOnChar_append (a := xs) b fun hm => h (List.mem_cons_of_mem _ hm)
    show splitOnChar c (x :: (xs ++ c :: b)) = _
    rw [splitOnChar, if_neg hx, ih, consHead]

/-! ### Helper lemmas: decimal digits and parsing -/

theorem digitChar_is_digit {d : Nat} (h : d < 10) :
    '0' ≤ digitChar d ∧ digitChar d ≤ '9' := by
  unfold digitChar
  interval_cases d <;> exact ⟨by decide, by decide⟩

theorem digitChar_toNat {d : Nat} (h : d < 10) : (digitChar d).toNat = 48 + d := by
  unfold digitChar
  interval_cases d <;> decide

theorem char_digit_bounds {c : Char} (h1 : '0' ≤ c) (h2 : c ≤ '9') :
    48 ≤ c.toNat ∧ c.toNat ≤ 57 := by
  simp [Char.le_def] at h1 h2
  exact ⟨h1, h2⟩

theorem natDigitsCore_fuel {n : Nat} : ∀ {fuel fuel' : Nat} (acc : List Char),
    n < fuel → n < fuel' → natDigitsCore fuel n acc = natDigitsCore fuel' n acc := by
  induction n using Nat.strong_induction_on with
  | _ n ih =>
    intro fuel fuel' acc hf hf'
    obtain ⟨f, rfl⟩ : ∃ f, fuel = f + 1 := ⟨fuel - 1, by omega⟩
    obtain ⟨f', rfl⟩ : ∃ g, fuel' = g + 1 := ⟨fuel' - 1, by omega⟩
    rw [natDigitsCore, natDigitsCore]
    by_cases h : n < 10
    · rw [if_pos h, if_pos h]
    · rw [if_neg h, if_neg h]
      exact ih (n / 10) (by omega) _ (by omega) (by omega)

theorem natDigitsCore_append (n : Nat) : ∀ (fuel : Nat) (acc : List Char), n < fuel →
    natDigitsCore fuel n acc = natDigits n ++ acc := by
  induction n using Nat.strong_induction_on with
  | _ n ih =>
    intro fuel acc hf
    obtain ⟨f, rfl⟩ : ∃ f, fuel = f + 1 := ⟨fuel - 1, by omega⟩
    conv_lhs => rw [natDigitsCore]
    conv_rhs => rw [natDigits, natDigitsCore]
    by_cases h : n < 10
    · rw [if_pos h, if_pos h]
      rfl
    · rw [if_neg h, if_neg h, ih (n / 10) (by omega) f _ (by omega),
        ih (n / 10) (by omega) n _ (by omega)]
      simp

theorem natDigits_eq_of_lt {n : Nat} (h : n < 10) : natDigits n = [digitChar n] := by
  rw [natDigits, natDigitsCore, if_pos h]

theorem natDigits_eq_of_ge {n : Nat} (h : ¬ n < 10) :
    natDigits n = natDigits (n / 10) ++ [digitChar (n % 10)] := by
  rw [natDigits, natDigitsCore, if_neg h]
  exact natDigitsCore_append (n / 10) n [digitChar (n % 10)] (by omega)

theorem natDigits_all_digits (n : Nat) :
    ∀ c ∈ natDigits n, '0' ≤ c ∧ c ≤ '9' := by
  induction n using Nat.strong_induction_on with
  | _ n ih =>
    by_cases h : n < 10
    · rw [natDigits_eq_of_lt h]
      intro c hc
      simp at hc
      subst hc
      exact digitChar_is_digit h
    · rw [natDigits_eq_of_ge h]
      intro c hc
      rcases List.mem_append.mp hc with hc | hc
      · exact ih _ (Nat.div_lt_self (by omega) (by omega)) c hc
      · simp at hc
        subst hc
        exact digitChar_is_digit (Nat.mod_lt _ (by omega))

theorem natDigits_ne_nil (n : Nat) : natDigits n ≠ [] := by
  by_cases h : n < 10
  · rw [natDigits_eq_of_lt h]
    simp
  · rw [natDigits_eq_of_ge h]
    simp

theorem not_mem_natDigits {n : Nat} {c : Char} (hc : c.toNat < 48) :
    c ∉ natDigits n := by
  intro hm
  have h := natDigits_all_digits n c hm
  have hb := char_digit_bounds h.1 h.2
  omega

theorem digitsToNatAux_append (a b : List Char) (acc : Nat) :
    digitsToNatAux (a ++ b) acc =
      (digitsToNatAux a acc).bind fun m => digitsToNatAux b m := by
  induction a generalizing acc with
  | nil => rfl
  | cons c cs ih =>
    rw [List.cons_append, digitsToNatAux, digitsToNatAux]
    by_cases h : '0' ≤ c ∧ c ≤ '9'
    · rw [if_pos h, if_pos h, ih]
    · rw [if_neg h, if_neg h]
      rfl

theorem digitsToNatAux_natDigits (n : Nat) : digitsToNatAux (natDigits n) 0 = some n := by
  induction n using Nat.strong_induction_on with
  | _ n ih =>
    by_cases h : n < 10
    · rw [natDigits_eq_of_lt h, digitsToNatAux, if_pos (digitChar_is_digit h),
        digitsToNatAux, digitChar_toNat h]
      congr 1
      omega
    · rw [natDigits_eq_of_ge h, digitsToNatAux_append,
        ih _ (Nat.div_lt_self (by omega) (by omega))]
      have hm : n % 10 < 10 := Nat.mod_lt _ (by omega)
      show digitsToNatAux [digitChar (n % 10)] (n / 10) = some n
      rw [digitsToNatAux, if_pos (digitChar_is_digit hm), digitsToNatAux,
        digitChar_toNat hm]
      congr 1
      omega

theorem digitsToNatAux_lt {l : List Char} {acc v : Nat}
    (h : digitsToNatAux l acc = some v) : v < (acc + 1) * 10 ^ l.length := by
  induction l generalizing acc with
  | nil =>
    simp [digitsToNatAux] at h
    simp [← h]
  | cons c cs ih =>
    rw [digitsToNatAux] at h
    by_cases hc : '0' ≤ c ∧ c ≤ '9'
    · rw [if_pos hc] at h
      have hd := char_digit_bounds hc.1 hc.2
      have hrec := ih h
      have hstep : acc * 10 + (c.toNat - 48) + 1 ≤ (acc + 1) * 10 := by omega
      have : v < ((acc + 1) * 10) * 10 ^ cs.length :=
        lt_of_lt_of_le hrec (Nat.mul_le_mul_right _ hstep)
      simpa [List.length_cons, pow_succ] using lt_of_lt_of_le this (by ring_nf; omega)
    · rw [if_neg hc] at h
      exact absurd h (by simp)

theorem digitsToNatAux_replicate_zero (k : Nat) (l : List Char) :
    digitsToNatAux (List.replicate k '0' ++ l) 0 = digitsToNatAux l 0 := by
  induction k with
  | zero => rfl
  | succ k ih =>
    rw [List.replicate_succ, List.cons_append, digitsToNatAux, if_pos (by decide)]
    exact ih

theorem natDigits_length_le {n k : Nat} (hk : 1 ≤ k) (h : n < 10 ^ k) :
    (natDigits n).length ≤ k := by
  induction n using Nat.strong_induction_on generalizing k with
  | _ n ih =>
    by_cases hn : n < 10
    · rw [natDigits_eq_of_lt hn]
      simpa using hk
    · rw [natDigits_eq_of_ge hn]
      have hk2 : 2 ≤ k := by
        by_contra hc
        have hk1 : k = 1 := by omega
        subst hk1
        rw [pow_one] at h
        omega
      have hdiv : n / 10 < 10 ^ (k - 1) := by
        rw [Nat.div_lt_iff_lt_mul (by omega)]
        calc n < 10 ^ k := h
          _ = 10 ^ (k - 1) * 10 := by
            rw [← pow_succ]
            congr 1
            omega
      have hrec := ih _ (Nat.div_lt_self (by omega) (by omega)) (by omega) hdiv
      simp only [List.length_append, List.length_cons, List.length_nil]
      omega

theorem ParseInt64_digits {l : List Char} (hne : l ≠ [])
    (hd : ∀ c ∈ l, '0' ≤ c ∧ c ≤ '9') {v : Nat}
    (hv : digitsToNatAux l 0 = some v) (hr : (v : Int) ≤ int64Max) :
    ParseInt64 l = some (v : Int) := by
  obtain ⟨c, cs, rfl⟩ := List.exists_cons_of_ne_nil hne
  have hc := hd c (List.mem_cons_self _ _)
  have hb := char_digit_bounds hc.1 hc.2
  have hminus : ¬ c = '-' := by
    intro he
    subst he
    revert hb
    decide
  have hplus : ¬ c = '+' := by
    intro he
    subst he
    revert hb
    decide
  simp only [ParseInt64, if_neg hminus, if_neg hplus, hv]
  simp [hr]

theorem ParseInt64_neg_digits {l : List Char} (hne : l ≠ [])
    {v : Nat} (hv : digitsToNatAux l 0 = some v)
    (hr : (v : Int) ≤ 9223372036854775808) :
    ParseInt64 ('-' :: l) = some (-(v : Int)) := by
  obtain ⟨c, cs, rfl⟩ := List.exists_cons_of_ne_nil hne
  simp only [ParseInt64, hv]
  simp [hr]

theorem ParseInt64_intChars {i : Int} (h1 : int64Min < i) (h2 : i ≤ int64Max) :
    ParseInt64 (intChars i) = some i := by
  unfold int64Min at h1
  unfold intChars
  by_cases hi : i < 0
  · rw [if_pos hi]
    have hr : ((i.natAbs : Nat) : Int) ≤ 9223372036854775808 := by omega
    rw [ParseInt64_neg_digits (natDigits_ne_nil _) (digitsToNatAux_natDigits _) hr]
    congr 1
    omega
  · rw [if_neg hi]
    have hr : ((i.natAbs : Nat) : Int) ≤ int64Max := by
      unfold int64Max
      unfold int64Max at h2
      omega
    rw [ParseInt64_digits (natDigits_ne_nil _) (natDigits_all_digits _)
      (digitsToNatAux_natDigits _) hr]
    congr 1
    omega

theorem ParseInt64_zeroPad {w : Nat} (hw : 1 ≤ w) {v : Nat}
    (hv10 : v < 10 ^ w) (hr : (v : Int) ≤ int64Max) :
    ParseInt64 (zeroPad w (natDigits v)) = some (v : Int) ∧
      (zeroPad w (natDigits v)).length = w := by
  have hlen : (natDigits v).length ≤ w := natDigits_length_le hw hv10
  constructor
  · apply ParseInt64_digits
    · unfold zeroPad
      have := natDigits_ne_nil v
      intro hcontra
      simp at hcontra
      exact this hcontra.2
    · unfold zeroPad
      intro c hc
      rcases List.mem_append.mp hc with hc | hc
      · have : c = '0' := List.eq_of_mem_replicate hc
        subst this
        exact ⟨by decide, by decide⟩
      · exact natDigits_all_digits v c hc
    · unfold zeroPad
      rw [digitsToNatAux_replicate_zero]
      exact digitsToNatAux_natDigits v
    · exact hr
  · unfold zeroPad
    simp only [List.length_append, List.length_replicate]
    omega

theorem NewMoneyFromString_shape (A B cur : List Char)
    (hsA : ' ' ∉ A) (hsB : ' ' ∉ B) (hscur : ' ' ∉ cur)
    (hdA : '.' ∉ A) (hdB : '.' ∉ B)
    (hB8 : B.length ≤ 8)
    {ai af : Int} (hA : ParseInt64 A = some ai) (hBv : ParseInt64 B = some af) :
    NewMoneyFromString (String.mk ((A ++ '.' :: B) ++ ' ' :: cur)) =
      NewMoney (if ai < 0 then wrap64 (wrap64 (ai * 10 ^ B.length) - af)
                else wrap64 (wrap64 (ai * 10 ^ B.length) + af))
        (String.mk (cur.map Char.toUpper)) (B.length : Int) := by
  have hs : ' ' ∉ A ++ '.' :: B := by
    intro h
    rcases List.mem_append.mp h with h | h
    · exact hsA h
    · rcases List.mem_cons.mp h with h | h
      · exact absurd h (by decide)
      · exact hsB h
  have hdata : (String.mk ((A ++ '.' :: B) ++ ' ' :: cur)).data =
      (A ++ '.' :: B) ++ ' ' :: cur := rfl
  have hB8' : ¬ 8 < B.length := by omega
  simp only [NewMoneyFromString, hdata, splitOnChar_append cur hs,
    splitOnChar_of_not_mem hscur, splitOnChar_append B hdA,
    splitOnChar_of_not_mem hdB, if_neg hB8', hA, hBv]

/-! ### Helper lemmas: rendering -/

theorem money_string_small (m : Money) (hinit : m.initialized = true)
    (hp1 : 1 ≤ m.precision) (hp8 : m.precision ≤ 8) (hmin : int64Min < m.amount)
    (hsmall : ((m.amount.natAbs : Nat) : Int) < 10 ^ m.precision.toNat) :
    m.String =
      String.mk (intChars m.amount ++ '.' :: zeroPad m.precision.toNat (natDigits 0)) := by
  unfold int64Min at hmin
  simp only [Money.String]
  rw [if_neg (by simp [hinit]), if_neg (by omega)]
  by_cases ha : m.amount < 0
  · have hw : wrap64 (-m.amount) = -m.amount := by
      apply wrap64_eq_self
      · unfold int64Min
        omega
      · unfold int64Max
        omega
    rw [if_pos ⟨ha, by rw [hw]; omega⟩]
  · rw [if_neg (fun hcon => ha hcon.1), if_pos ⟨by omega, by omega⟩]

theorem money_string_normal (m : Money) (hinit : m.initialized = true)
    (hp1 : 1 ≤ m.precision) (hp8 : m.precision ≤ 8) (hmin : int64Min < m.amount)
    (hbig : 10 ^ m.precision.toNat ≤ ((m.amount.natAbs : Nat) : Int)) :
    m.String =
      String.mk (intChars (Int.tdiv m.amount (10 ^ m.precision.toNat)) ++ '.' ::
        zeroPad m.precision.toNat
          (natDigits (Int.tmod m.amount (10 ^ m.precision.toNat)).natAbs)) := by
  unfold int64Min at hmin
  have hD0 : (0 : Int) < 10 ^ m.precision.toNat := by positivity
  have hD8 : (10 : Int) ^ m.precision.toNat ≤ 10 ^ 8 :=
    pow_le_pow_right₀ (by norm_num) (by omega)
  have htm : (Int.tmod m.amount (10 ^ m.precision.toNat)).natAbs <
      (10 ^ m.precision.toNat : Int).natAbs :=
    natAbs_tmod_lt m.amount (by omega)
  simp only [Money.String]
  rw [if_neg (by simp [hinit]), if_neg (by omega)]
  by_cases ha : m.amount < 0
  · have hw : wrap64 (-m.amount) = -m.amount := by
      apply wrap64_eq_self
      · unfold int64Min
        omega
      · unfold int64Max
        omega
    rw [if_neg (fun hcon => by rw [hw] at hcon; omega), if_neg (by omega)]
    have hmod := tmod_nonpos_of_nonpos (10 ^ m.precision.toNat) (le_of_lt ha)
    by_cases hz : Int.tmod m.amount (10 ^ m.precision.toNat) < 0
    · rw [if_pos hz]
      have hw2 : wrap64 (-Int.tmod m.amount (10 ^ m.precision.toNat)) =
          -Int.tmod m.amount (10 ^ m.precision.toNat) := by
        apply wrap64_eq_self
        · unfold int64Min
          omega
        · unfold int64Max
          omega
      rw [hw2]
      have harg : (-Int.tmod m.amount (10 ^ m.precision.toNat)).toNat =
          (Int.tmod m.amount (10 ^ m.precision.toNat)).natAbs := by omega
      rw [harg]
    · rw [if_neg hz]
      have harg : (Int.tmod m.amount (10 ^ m.precision.toNat)).toNat =
          (Int.tmod m.amount (10 ^ m.precision.toNat)).natAbs := by omega
      rw [harg]
  · rw [if_neg (fun hcon => ha hcon.1), if_neg (by omega)]
    have hmod := Int.tmod_nonneg (10 ^ m.precision.toNat) (by omega : (0:Int) ≤ m.amount)
    rw [if_neg (by omega)]
    have harg : (Int.tmod m.amount (10 ^ m.precision.toNat)).toNat =
        (Int.tmod m.amount (10 ^ m.precision.toNat)).natAbs := by omega
    rw [harg]

theorem money_format_data (m : Money) (hinit : m.initialized = true) :
    m.Format = String.mk (m.String.data ++ ' ' :: m.currency.data) := by
  simp only [Money.Format]
  rw [if_neg (by simp [hinit])]
  apply String.ext
  simp [String.data_append]

theorem zeroPad_natDigits_zero {p : Nat} (hp : 1 ≤ p) :
    zeroPad p (natDigits 0) = List.replicate p '0' := by
  rw [show natDigits 0 = ['0'] from rfl]
  unfold zeroPad
  simp only [List.length_cons, List.length_nil]
  conv_rhs => rw [show p = (p - 1) + 1 by omega]
  rw [List.replicate_succ']

theorem NewMoney_eval {a : Int} {c : String} {p : Int} (h0 : 0 ≤ p) (h8 : p ≤ 8) :
    NewMoney a c p =
      some { amount := a, currency := c, precision := p, initialized := true } := by
  unfold NewMoney
  rw [if_neg (by omega), if_neg (by omega)]

/-! ### Claim theorems -/

/-- C4: the default (zero-value) `Money` renders as the empty string under both
`String` and `Format`, and `Plus`, `Minus`, `Inc`, `Dec`, `Times` and
`DividedBy` all return an error (`none`) on it, for every argument. -/
theorem claim_c4_uninitialized_money :
    defaultMoney.String = "" ∧ defaultMoney.Format = "" ∧
    (∀ n : Money, defaultMoney.Plus n = none) ∧
    (∀ n : Money, defaultMoney.Minus n = none) ∧
    (∀ k : Int, defaultMoney.Inc k = none) ∧
    (∀ k : Int, defaultMoney.Dec k = none) ∧
    (∀ k : Int, defaultMoney.Times k = none) ∧
    (∀ k : Int, defaultMoney.DividedBy k = none) :=
  ⟨rfl, rfl, fun _ => rfl, fun _ => rfl, fun _ => rfl, fun _ => rfl,
    fun _ => rfl, fun _ => rfl⟩

/-- C5: for initialized Money values whose currencies differ, `Plus` and
`Minus` both return an error (`none`) and no result value. -/
theorem claim_c5_currency_mismatch (m n : Money)
    (hm : m.initialized = true) (hn : n.initialized = true)
    (hc : m.currency ≠ n.currency) :
    m.Plus n = none ∧ m.Minus n = none := by
  constructor
  · simp only [Money.Plus]
    rw [if_neg (by simp [hm, hn]), if_pos hc]
  · simp only [Money.Minus]
    rw [if_neg (by simp [hm, hn]), if_pos hc]

/-- Witness for C5: `NewUSD(100).Plus(NewARS(100))` (and `Minus`) fail. -/
theorem claim_c5_witness :
    (NewUSD 100).Plus (NewARS 100) = none ∧ (NewUSD 100).Minus (NewARS 100) = none :=
  claim_c5_currency_mismatch (NewUSD 100) (NewARS 100) rfl rfl (by decide)

/-- C7: for int64 operands, `TrySafeDiv` fails exactly when the divisor is zero
or the division is `MinInt64 / -1`, and otherwise returns the quotient
truncated toward zero, without error. -/
theorem claim_c7_trySafeDiv (a b : Int)
    (ha1 : int64Min ≤ a) (ha2 : a ≤ int64Max)
    (hb1 : int64Min ≤ b) (hb2 : b ≤ int64Max) :
    (TrySafeDiv a b = none ↔ b = 0 ∨ (a = int64Min ∧ b = -1)) ∧
    (b ≠ 0 → ¬(a = int64Min ∧ b = -1) → TrySafeDiv a b = some (Int.tdiv a b)) := by
  unfold TrySafeDiv
  constructor
  · by_cases h0 : b = 0
    · simp [h0]
    · rw [if_neg h0]
      by_cases hov : a = int64Min ∧ b = -1
      · simp [hov, h0]
      · simp [hov, h0]
  · intro hb0 hov
    rw [if_neg hb0, if_neg hov]

/-- Witness for C7 at `a = MinInt64, b = -1` (failure side) and `a = 7, b = 2`
(success side). -/
theorem claim_c7_witness :
    (TrySafeDiv int64Min (-1) = none ↔
      (-1 : Int) = 0 ∨ (int64Min = int64Min ∧ (-1 : Int) = -1)) ∧
    TrySafeDiv 7 2 = some (Int.tdiv 7 2) :=
  ⟨(claim_c7_trySafeDiv int64Min (-1) (by decide) (by decide) (by decide)
      (by decide)).1,
    (claim_c7_trySafeDiv 7 2 (by decide) (by decide) (by decide) (by decide)).2
      (by decide) (by decide)⟩

/-- C3 (code bug): `TrySafeMul`'s sign-consistency checks miss overflows whose
wrapped product is non-negative: `2^32 * 2^32 = 2^64` wraps to `0` and is
returned without error, although the exact product exceeds `MaxInt64`
(contradicting the function's documented contract of erroring on overflow). -/
theorem claim_c3_mul_missed_overflow :
    TrySafeMul 4294967296 4294967296 = some 0 ∧
    int64Max < (4294967296 : Int) * 4294967296 := by
  constructor
  · decide
  · decide

/-- C10 counterexample: on the claim's own example input the returned amount is
`-9223372036854775806`, not `-6`. -/
theorem claim_c10_counterexample :
    (NewMoneyFromString "922337203685477581.0 USD").map Money.amount =
      some (-9223372036854775806) ∧
    (-9223372036854775806 : Int) ≠ -6 := by
  constructor
  · decide
  · decide

/-- C10 (amended): `NewMoneyFromString "922337203685477581.0 USD"` succeeds, and
the returned amount `-9223372036854775806` differs from the mathematical scaled
value `922337203685477581 * 10 + 0`, being exactly that value reduced by
`2^64` (unchecked wrapping int64 arithmetic). -/
theorem claim_c10_parse_wraps :
    NewMoneyFromString "922337203685477581.0 USD" =
      some { amount := -9223372036854775806, currency := "USD", precision := 1,
             initialized := true } ∧
    (-9223372036854775806 : Int) ≠ 922337203685477581 * 10 + 0 ∧
    (-9223372036854775806 : Int) = 922337203685477581 * 10 + 0 - 18446744073709551616 := by
  refine ⟨?_, by decide, by decide⟩
  decide

/-- C8: an initialized Money with precision `p ∈ [1,8]` and `|amount| < 10^p`
renders as the raw amount (Go `%d`) followed by a decimal point and `p` zero
digits. -/
theorem claim_c8_subunit_quirk (m : Money)
    (hinit : m.initialized = true) (hp1 : 1 ≤ m.precision) (hp8 : m.precision ≤ 8)
    (hsmall : ((m.amount.natAbs : Nat) : Int) < 10 ^ m.precision.toNat) :
    m.String =
      String.mk (intChars m.amount ++ '.' :: List.replicate m.precision.toNat '0') := by
  have hD8 : (10 : Int) ^ m.precision.toNat ≤ 10 ^ 8 :=
    pow_le_pow_right₀ (by norm_num) (by omega)
  have hmin : int64Min < m.amount := by
    unfold int64Min
    omega
  rw [money_string_small m hinit hp1 hp8 hmin hsmall,
    zeroPad_natDigits_zero (by omega)]

/-- Witness for C8: amount `-5` at precision 8 renders as `"-5.00000000"`. -/
theorem claim_c8_witness :
    ({ amount := -5, currency := "BTC", precision := 8, initialized := true
        : Money }).String = "-5.00000000" := by
  rw [claim_c8_subunit_quirk _ rfl (by decide) (by decide) (by decide)]
  decide

theorem NewMoney_precision {a : Int} {c : String} {p : Int} {mm : Money}
    (h : NewMoney a c p = some mm) : 0 ≤ mm.precision ∧ mm.precision ≤ 8 := by
  unfold NewMoney at h
  by_cases h1 : p < 0
  · rw [if_pos h1] at h
    exact absurd h (by simp)
  · rw [if_neg h1] at h
    by_cases h2 : 8 < p
    · rw [if_pos h2] at h
      exact absurd h (by simp)
    · rw [if_neg h2] at h
      injection h with h
      subst h
      show 0 ≤ p ∧ p ≤ 8
      omega

theorem NewMoneyFromString_precision {s : String} {mm : Money}
    (h : NewMoneyFromString s = some mm) : 0 ≤ mm.precision ∧ mm.precision ≤ 8 := by
  unfold NewMoneyFromString at h
  dsimp only at h
  repeat' split at h
  all_goals first
    | exact absurd h (by simp)
    | exact NewMoney_precision h

/-- C6: `NewMoney` succeeds exactly for precision in [0, 8], and every Money
value produced by a constructor (`NewMoney`, `NewUSD`, `NewARS`,
`NewMoneyFromString`) or by an arithmetic operation (`Plus`, `Minus`, `Inc`,
`Dec`, `Times`, `DividedBy`) has precision in [0, 8]. -/
theorem claim_c6_precision_invariant :
    (∀ (a : Int) (c : String) (p : Int),
      (NewMoney a c p).isSome = true ↔ 0 ≤ p ∧ p ≤ 8) ∧
    (∀ a : Int, 0 ≤ (NewUSD a).precision ∧ (NewUSD a).precision ≤ 8) ∧
    (∀ a : Int, 0 ≤ (NewARS a).precision ∧ (NewARS a).precision ≤ 8) ∧
    (∀ (a : Int) (c : String) (p : Int) (mm : Money),
      NewMoney a c p = some mm → 0 ≤ mm.precision ∧ mm.precision ≤ 8) ∧
    (∀ (s : String) (mm : Money),
      NewMoneyFromString s = some mm → 0 ≤ mm.precision ∧ mm.precision ≤ 8) ∧
    (∀ m n mm : Money, m.Plus n = some mm → 0 ≤ mm.precision ∧ mm.precision ≤ 8) ∧
    (∀ m n mm : Money, m.Minus n = some mm → 0 ≤ mm.precision ∧ mm.precision ≤ 8) ∧
    (∀ (m : Money) (k : Int) (mm : Money),
      m.Inc k = some mm → 0 ≤ mm.precision ∧ mm.precision ≤ 8) ∧
    (∀ (m : Money) (k : Int) (mm : Money),
      m.Dec k = some mm → 0 ≤ mm.precision ∧ mm.precision ≤ 8) ∧
    (∀ (m : Money) (k : Int) (mm : Money),
      m.Times k = some mm → 0 ≤ mm.precision ∧ mm.precision ≤ 8) ∧
    (∀ (m : Money) (k : Int) (mm : Money),
      m.DividedBy k = some mm → 0 ≤ mm.precision ∧ mm.precision ≤ 8) := by
  refine ⟨?_,
    fun a => ⟨show (0:Int) ≤ 2 by decide, show (2:Int) ≤ 8 by decide⟩,
    fun a => ⟨show (0:Int) ≤ 2 by decide, show (2:Int) ≤ 8 by decide⟩,
    fun a c p mm h => NewMoney_precision h,
    fun s mm h => NewMoneyFromString_precision h, ?_, ?_, ?_, ?_, ?_, ?_⟩
  · intro a c p
    unfold NewMoney
    by_cases h1 : p < 0
    · simp only [if_pos h1]
      simp
      omega
    · by_cases h2 : 8 < p
      · simp only [if_neg h1, if_pos h2]
        simp
        omega
      · simp only [if_neg h1, if_neg h2]
        simp
        omega
  all_goals
    intro m k mm h
    first
      | unfold Money.Plus at h
      | unfold Money.Minus at h
      | unfold Money.Inc at h
      | unfold Money.Dec at h
      | unfold Money.Times at h
      | unfold Money.DividedBy at h
    try dsimp only at h
    repeat' split at h
    all_goals first
      | exact absurd h (by simp)
      | exact NewMoney_precision h

/-- Witness for C6: the iff and the parse conjunct at concrete inputs. -/
theorem claim_c6_witness :
    ((NewMoney 500 "USD" 2).isSome = true ↔ (0 : Int) ≤ 2 ∧ (2 : Int) ≤ 8) ∧
    ((NewMoney 500 "USD" 9).isSome = true ↔ (0 : Int) ≤ 9 ∧ (9 : Int) ≤ 8) ∧
    (0 ≤ ({ amount := 10099, currency := "USD", precision := 2,
            initialized := true : Money }).precision ∧
      ({ amount := 10099, currency := "USD", precision := 2,
         initialized := true : Money }).precision ≤ 8) :=
  ⟨claim_c6_precision_invariant.1 500 "USD" 2,
    claim_c6_precision_invariant.1 500 "USD" 9,
    claim_c6_precision_invariant.2.2.2.2.1 "100.99 USD" _ (by decide)⟩

/-- C2 counterexample: at `m = NewUSD 1`, `d = MinInt64` checked division
succeeds with truncating quotient 0 and the mathematical half-up condition
`2·|1 mod d| ≥ |d|` is false, so the claim predicts amount 0; the code returns
amount -1, because `absDivisor = -MinInt64` wraps to a negative value and the
rounding test fires. -/
theorem claim_c2_counterexample :
    (NewUSD 1).DividedBy int64Min =
      some { amount := -1, currency := "USD", precision := 2, initialized := true } ∧
    Int.tdiv 1 int64Min = 0 ∧
    ¬((int64Min.natAbs : Int) ≤ 2 * ((Int.tmod 1 int64Min).natAbs : Int)) := by
  refine ⟨by decide, by decide, by decide⟩

/-- C2 (amended): for an initialized in-range Money and in-range divisor for
which checked division succeeds, and additionally `d ≠ MinInt64` and
`2·|m.amount mod d| ≤ MaxInt64` (so the int64 rounding comparison does not
wrap), `DividedBy` returns the truncating quotient `q`, half-up adjusted:
`q+1` when `2·|remainder| ≥ |d|` and dividend and divisor share sign, `q-1`
when they differ, `q` otherwise. -/
theorem claim_c2_half_up (m : Money) (d : Int)
    (hinit : m.initialized = true) (hp0 : 0 ≤ m.precision) (hp8 : m.precision ≤ 8)
    (hlo : int64Min ≤ m.amount) (hhi : m.amount ≤ int64Max)
    (hdlo : int64Min ≤ d) (hdhi : d ≤ int64Max)
    (hd0 : d ≠ 0) (hov : ¬(m.amount = int64Min ∧ d = -1)) (hdmin : d ≠ int64Min)
    (hnw : 2 * ((Int.tmod m.amount d).natAbs : Int) ≤ int64Max) :
    m.DividedBy d =
      some { amount :=
               if (d.natAbs : Int) ≤ 2 * ((Int.tmod m.amount d).natAbs : Int) then
                 (if (0 < m.amount ∧ 0 < d) ∨ (m.amount < 0 ∧ d < 0) then
                    Int.tdiv m.amount d + 1
                  else Int.tdiv m.amount d - 1)
               else Int.tdiv m.amount d,
             currency := m.currency, precision := m.precision,
             initialized := true } := by
  have hL : (-9223372036854775808 : Int) ≤ m.amount := hlo
  have hH : m.amount ≤ 9223372036854775807 := hhi
  have hdL : (-9223372036854775808 : Int) ≤ d := hdlo
  have hdH : d ≤ 9223372036854775807 := hdhi
  have hdM : d ≠ -9223372036854775808 := hdmin
  have hN : 2 * ((Int.tmod m.amount d).natAbs : Int) ≤ 9223372036854775807 := hnw
  have htm := natAbs_tmod_lt m.amount hd0
  simp only [Money.DividedBy, TrySafeDiv]
  rw [if_neg (by simp [hinit]), if_neg hd0, if_neg hov]
  dsimp only
  have habsR : (if Int.tmod m.amount d < 0 then wrap64 (-Int.tmod m.amount d)
      else Int.tmod m.amount d) = ((Int.tmod m.amount d).natAbs : Int) := by
    by_cases hz : Int.tmod m.amount d < 0
    · rw [if_pos hz, wrap64_eq_self (by unfold int64Min; omega)
        (by unfold int64Max; omega)]
      omega
    · rw [if_neg hz]
      omega
  have habsD : (if d < 0 then wrap64 (-d) else d) = ((d.natAbs : Nat) : Int) := by
    by_cases hz : d < 0
    · rw [if_pos hz, wrap64_eq_self (by unfold int64Min; omega)
        (by unfold int64Max; omega)]
      omega
    · rw [if_neg hz]
      omega
  rw [habsR, habsD]
  have hw2 : wrap64 (((Int.tmod m.amount d).natAbs : Int) * 2) =
      2 * ((Int.tmod m.amount d).natAbs : Int) := by
    rw [wrap64_eq_self (by unfold int64Min; omega) (by unfold int64Max; omega)]
    ring
  rw [hw2]
  by_cases hround : ((d.natAbs : Nat) : Int) ≤ 2 * ((Int.tmod m.amount d).natAbs : Int)
  · rw [if_pos hround, if_pos hround]
    have ha0 : m.amount ≠ 0 := by
      intro h0
      rw [h0, Int.zero_tmod] at hround
      simp at hround
      omega
    have hd2 : 2 ≤ d.natAbs := by omega
    have hqn : (Int.tdiv m.amount d).natAbs ≤ m.amount.natAbs / 2 := by
      rw [Int.natAbs_tdiv]
      exact Nat.div_le_div_left hd2 (by omega)
    have hq1 : wrap64 (Int.tdiv m.amount d + 1) = Int.tdiv m.amount d + 1 := by
      rw [wrap64_eq_self (by unfold int64Min; omega) (by unfold int64Max; omega)]
    have hq2 : wrap64 (Int.tdiv m.amount d - 1) = Int.tdiv m.amount d - 1 := by
      rw [wrap64_eq_self (by unfold int64Min; omega) (by unfold int64Max; omega)]
    have hsign : ((0 ≤ m.amount ∧ 0 < d) ∨ (m.amount < 0 ∧ d < 0)) ↔
        ((0 < m.amount ∧ 0 < d) ∨ (m.amount < 0 ∧ d < 0)) := by omega
    by_cases hs : (0 < m.amount ∧ 0 < d) ∨ (m.amount < 0 ∧ d < 0)
    · rw [if_pos (hsign.mpr hs), if_pos hs, hq1, NewMoney_eval hp0 hp8]
    · rw [if_neg (fun hcon => hs (hsign.mp hcon)), if_neg hs, hq2,
        NewMoney_eval hp0 hp8]
  · rw [if_neg hround, if_neg hround, NewMoney_eval hp0 hp8]

/-- Witness for C2: `NewUSD(10000).DividedBy(3)` has amount 3333,
`NewUSD(20000).DividedBy(3)` has amount 6667, and `DividedBy 0` fails. -/
theorem claim_c2_witness :
    (NewUSD 10000).DividedBy 3 =
      some { amount := 3333, currency := "USD", precision := 2,
             initialized := true } ∧
    (NewUSD 20000).DividedBy 3 =
      some { amount := 6667, currency := "USD", precision := 2,
             initialized := true } ∧
    (NewUSD 10000).DividedBy 0 = none := by
  refine ⟨?_, ?_, by decide⟩
  · rw [claim_c2_half_up (NewUSD 10000) 3 rfl (by decide) (by decide) (by decide)
      (by decide) (by decide) (by decide) (by decide) (by decide) (by decide)
      (by decide)]
    decide
  · rw [claim_c2_half_up (NewUSD 20000) 3 rfl (by decide) (by decide) (by decide)
      (by decide) (by decide) (by decide) (by decide) (by decide) (by decide)
      (by decide)]
    decide

/-- C9: a parse input of the form `"-0.<frac> <CUR>"` whose fractional token is
all digits and non-zero succeeds and returns a POSITIVE amount: the integer
token "-0" parses to 0, which is ≥ 0, so the fractional part is added rather
than subtracted and the minus sign is silently dropped. -/
theorem claim_c9_minus_zero_sign_loss (frac cur : List Char) (v : Nat)
    (hfd : ∀ c ∈ frac, '0' ≤ c ∧ c ≤ '9')
    (hf1 : 1 ≤ frac.length) (hf8 : frac.length ≤ 8)
    (hv : digitsToNatAux frac 0 = some v) (hvpos : 0 < v)
    (hcur : ' ' ∉ cur) :
    NewMoneyFromString (String.mk ('-' :: '0' :: '.' :: (frac ++ ' ' :: cur))) =
      some { amount := (v : Int), currency := String.mk (cur.map Char.toUpper),
             precision := (frac.length : Int), initialized := true } ∧
    0 < (v : Int) := by
  have hvlt : v < 10 ^ frac.length := by
    have h := digitsToNatAux_lt hv
    simpa using h
  have hpow : (10 : Nat) ^ frac.length ≤ 10 ^ 8 := Nat.pow_le_pow_right (by omega) hf8
  have hfs : ' ' ∉ frac := fun hm => by
    have h := hfd _ hm
    have hb := char_digit_bounds h.1 h.2
    revert hb
    decide
  have hfdot : '.' ∉ frac := fun hm => by
    have h := hfd _ hm
    have hb := char_digit_bounds h.1 h.2
    revert hb
    decide
  have hfne : frac ≠ [] := by
    intro h
    rw [h] at hf1
    simp at hf1
  have hA : ParseInt64 ['-', '0'] = some 0 := by decide
  have hB : ParseInt64 frac = some ((v : Nat) : Int) :=
    ParseInt64_digits hfne hfd hv (by unfold int64Max; omega)
  have hshape := NewMoneyFromString_shape ['-', '0'] frac cur (by decide) hfs hcur
    (by decide) hfdot hf8 hA hB
  have hlist : ('-' :: '0' :: '.' :: (frac ++ ' ' :: cur)) =
      (['-', '0'] ++ '.' :: frac) ++ ' ' :: cur := by simp
  constructor
  · rw [hlist, hshape, if_neg (by omega : ¬ (0 : Int) < 0), zero_mul,
      show wrap64 0 = 0 from by decide, zero_add,
      wrap64_eq_self (by unfold int64Min; omega) (by unfold int64Max; omega),
      NewMoney_eval (by omega) (by omega)]
  · omega

/-- Witness for C9: `"-0.50 USD"` parses to amount +50. -/
theorem claim_c9_witness :
    NewMoneyFromString "-0.50 USD" =
      some { amount := 50, currency := "USD", precision := 2,
             initialized := true } ∧
    (0 : Int) < 50 := by
  have h := claim_c9_minus_zero_sign_loss ['5', '0'] ['U', 'S', 'D'] 50
    (by decide) (by decide) (by decide) (by decide) (by decide) (by decide)
  have e1 : String.mk ('-' :: '0' :: '.' :: (['5', '0'] ++ ' ' :: ['U', 'S', 'D'])) =
      "-0.50 USD" := by decide
  rw [e1] at h
  refine ⟨?_, by decide⟩
  rw [h.1]
  decide

theorem not_mem_intChars {i : Int} {c : Char} (hc : c.toNat < 48) (hcm : c ≠ '-') :
    c ∉ intChars i := by
  unfold intChars
  by_cases hi : i < 0
  · rw [if_pos hi]
    intro hm
    rcases List.mem_cons.mp hm with h | h
    · exact hcm h
    · exact not_mem_natDigits hc h
  · rw [if_neg hi]
    exact not_mem_natDigits hc

theorem not_mem_zeroPad {w n : Nat} {c : Char} (hc : c.toNat < 48) :
    c ∉ zeroPad w (natDigits n) := by
  unfold zeroPad
  intro hm
  rcases List.mem_append.mp hm with h | h
  · have he := List.eq_of_mem_replicate h
    subst he
    exact absurd hc (by decide)
  · exact not_mem_natDigits hc h

/-- C1 counterexample: `NewUSD 50` is initialized with precision 2 ∈ [1, 8],
but its display form is `"50.00 USD"` (the sub-unit rendering quirk), which
parses back to amount 5000, so the round-trip `Equals` fails. -/
theorem claim_c1_counterexample :
    (NewMoneyFromString (NewUSD 50).Format).map (fun r => r.Equals (NewUSD 50)) =
      some false ∧
    (NewUSD 50).Format = "50.00 USD" ∧
    NewMoneyFromString "50.00 USD" =
      some { amount := 5000, currency := "USD", precision := 2,
             initialized := true } := by
  refine ⟨by decide, by decide, by decide⟩

/-- C1 (amended): the format/parse round-trip holds for every initialized
Money whose precision is in [1, 8], whose currency contains no space and is
fixed by upper-casing, and whose amount is above `MinInt64` and either zero or
at least one major unit (`|amount| ≥ 10^precision`): parsing the display form
succeeds and the result `Equals` the original.  (As stated the claim fails for
sub-unit amounts such as `NewUSD 50` — see the counterexample — as well as
for `amount = MinInt64` and for currencies changed by upper-casing.) -/
theorem claim_c1_roundtrip (m : Money)
    (hinit : m.initialized = true)
    (hp1 : 1 ≤ m.precision) (hp8 : m.precision ≤ 8)
    (hmin : int64Min < m.amount) (hmax : m.amount ≤ int64Max)
    (hcs : ' ' ∉ m.currency.data)
    (hcu : m.currency.data.map Char.toUpper = m.currency.data)
    (hmag : m.amount = 0 ∨
      (10 : Int) ^ m.precision.toNat ≤ ((m.amount.natAbs : Nat) : Int)) :
    NewMoneyFromString m.Format =
      some { amount := m.amount, currency := m.currency,
             precision := m.precision, initialized := true } ∧
    ({ amount := m.amount, currency := m.currency, precision := m.precision,
       initialized := true : Money }).Equals m = true := by
  refine ⟨?_, by simp [Money.Equals]⟩
  have hL : (-9223372036854775808 : Int) < m.amount := hmin
  have hH : m.amount ≤ 9223372036854775807 := hmax
  have hpn1 : 1 ≤ m.precision.toNat := by omega
  have hpn8 : m.precision.toNat ≤ 8 := by omega
  have hpcast : ((m.precision.toNat : Nat) : Int) = m.precision :=
    Int.toNat_of_nonneg (by omega)
  have hD0 : (0 : Int) < 10 ^ m.precision.toNat := by positivity
  have hD8 : (10 : Int) ^ m.precision.toNat ≤ 10 ^ 8 :=
    pow_le_pow_right₀ (by norm_num) hpn8
  have hcast : (((10 : Nat) ^ m.precision.toNat : Nat) : Int) =
      (10 : Int) ^ m.precision.toNat := by push_cast; ring
  have hpow8 : (10 : Nat) ^ m.precision.toNat ≤ 10 ^ 8 :=
    Nat.pow_le_pow_right (by omega) hpn8
  have hcurid : String.mk m.currency.data = m.currency := String.ext rfl
  rcases hmag with hz | hbig
  · -- amount zero: the quirk branch renders "0.<p zeros>", which parses back to 0
    have hfmt : m.Format = String.mk
        ((intChars m.amount ++ '.' :: zeroPad m.precision.toNat (natDigits 0))
          ++ ' ' :: m.currency.data) := by
      rw [money_format_data m hinit,
        money_string_small m hinit hp1 hp8 hmin (by omega)]
    have hA : ParseInt64 (intChars m.amount) = some m.amount :=
      ParseInt64_intChars hmin hmax
    have hB := ParseInt64_zeroPad (v := 0) hpn1 (by positivity) (by decide)
    have hB8 : (zeroPad m.precision.toNat (natDigits 0)).length ≤ 8 := by
      rw [hB.2]
      omega
    rw [hfmt, NewMoneyFromString_shape _ _ _
      (not_mem_intChars (by decide) (by decide)) (not_mem_zeroPad (by decide)) hcs
      (not_mem_intChars (by decide) (by decide)) (not_mem_zeroPad (by decide))
      hB8 hA hB.1, hB.2, hcu, hcurid, hpcast, hz]
    rw [if_neg (by omega : ¬ (0 : Int) < 0), zero_mul,
      show wrap64 0 = 0 from by decide, Nat.cast_zero, add_zero,
      show wrap64 0 = 0 from by decide, NewMoney_eval (by omega) hp8]
  · -- at least one major unit: the normal branch renders "<major>.<minor>"
    have hfmt : m.Format = String.mk
        ((intChars (Int.tdiv m.amount (10 ^ m.precision.toNat)) ++ '.' ::
            zeroPad m.precision.toNat
              (natDigits (Int.tmod m.amount (10 ^ m.precision.toNat)).natAbs))
          ++ ' ' :: m.currency.data) := by
      rw [money_format_data m hinit,
        money_string_normal m hinit hp1 hp8 hmin hbig]
    have hDn : ((10 : Int) ^ m.precision.toNat).natAbs = 10 ^ m.precision.toNat := by
      rw [Int.natAbs_pow]
      rfl
    have hmaj_le : (Int.tdiv m.amount (10 ^ m.precision.toNat)).natAbs ≤
        m.amount.natAbs := by
      rw [Int.natAbs_tdiv]
      exact Nat.div_le_self _ _
    have hA : ParseInt64 (intChars (Int.tdiv m.amount (10 ^ m.precision.toNat))) =
        some (Int.tdiv m.amount (10 ^ m.precision.toNat)) :=
      ParseInt64_intChars (by unfold int64Min; omega) (by unfold int64Max; omega)
    have htm : (Int.tmod m.amount (10 ^ m.precision.toNat)).natAbs <
        10 ^ m.precision.toNat := by
      have h := natAbs_tmod_lt m.amount (show (10 : Int) ^ m.precision.toNat ≠ 0 by omega)
      rw [hDn] at h
      exact h
    have hB := ParseInt64_zeroPad
      (v := (Int.tmod m.amount (10 ^ m.precision.toNat)).natAbs) hpn1 htm
      (by unfold int64Max; omega)
    have hB8 : (zeroPad m.precision.toNat
        (natDigits (Int.tmod m.amount (10 ^ m.precision.toNat)).natAbs)).length ≤ 8 := by
      rw [hB.2]
      omega
    rw [hfmt, NewMoneyFromString_shape _ _ _
      (not_mem_intChars (by decide) (by decide)) (not_mem_zeroPad (by decide)) hcs
      (not_mem_intChars (by decide) (by decide)) (not_mem_zeroPad (by decide))
      hB8 hA hB.1, hB.2, hcu, hcurid, hpcast]
    have hid := Int.tdiv_add_tmod m.amount (10 ^ m.precision.toNat)
    have hmd : Int.tdiv m.amount (10 ^ m.precision.toNat) * 10 ^ m.precision.toNat =
        m.amount - Int.tmod m.amount (10 ^ m.precision.toNat) := by
      rw [mul_comm]
      omega
    have ha0 : m.amount ≠ 0 := by
      intro h0
      rw [h0] at hbig
      simp at hbig
      omega
    by_cases ha : 0 < m.amount
    · have htnn : 0 ≤ Int.tmod m.amount (10 ^ m.precision.toNat) :=
        Int.tmod_nonneg _ (by omega)
      have hmaj_nonneg : 0 ≤ Int.tdiv m.amount (10 ^ m.precision.toNat) :=
        Int.tdiv_nonneg (by omega) (by omega)
      rw [if_neg (by omega), hmd,
        wrap64_eq_self
          (x := m.amount - Int.tmod m.amount (10 ^ m.precision.toNat))
          (by unfold int64Min; omega) (by unfold int64Max; omega),
        show ((((Int.tmod m.amount (10 ^ m.precision.toNat)).natAbs : Nat)) : Int) =
          Int.tmod m.amount (10 ^ m.precision.toNat) from by omega,
        show m.amount - Int.tmod m.amount (10 ^ m.precision.toNat) +
          Int.tmod m.amount (10 ^ m.precision.toNat) = m.amount from by ring,
        wrap64_eq_self (x := m.amount)
          (by unfold int64Min; omega) (by unfold int64Max; omega),
        NewMoney_eval (by omega) hp8]
    · have ha' : m.amount < 0 := by omega
      have htle := tmod_nonpos_of_nonpos (10 ^ m.precision.toNat) (le_of_lt ha')
      have hmajneg : Int.tdiv m.amount (10 ^ m.precision.toNat) < 0 := by
        have hmaj1 : 1 ≤ (Int.tdiv m.amount (10 ^ m.precision.toNat)).natAbs := by
          rw [Int.natAbs_tdiv, hDn]
          exact (Nat.one_le_div_iff (by positivity)).mpr (by omega)
        have h1 : 0 ≤ Int.tdiv (-m.amount) (10 ^ m.precision.toNat) :=
          Int.tdiv_nonneg (by omega) (by omega)
        rw [Int.neg_tdiv] at h1
        omega
      rw [if_pos hmajneg, hmd,
        wrap64_eq_self
          (x := m.amount - Int.tmod m.amount (10 ^ m.precision.toNat))
          (by unfold int64Min; omega) (by unfold int64Max; omega),
        show ((((Int.tmod m.amount (10 ^ m.precision.toNat)).natAbs : Nat)) : Int) =
          -Int.tmod m.amount (10 ^ m.precision.toNat) from by omega,
        show m.amount - Int.tmod m.amount (10 ^ m.precision.toNat) -
          -Int.tmod m.amount (10 ^ m.precision.toNat) = m.amount from by ring,
        wrap64_eq_self (x := m.amount)
          (by unfold int64Min; omega) (by unfold int64Max; omega),
        NewMoney_eval (by omega) hp8]

/-- Witness for C1 at `m = NewUSD 10099` (display form "100.99 USD"). -/
theorem claim_c1_witness :
    NewMoneyFromString (NewUSD 10099).Format =
      some { amount := 10099, currency := "USD", precision := 2,
             initialized := true } ∧
    ({ amount := 10099, currency := "USD", precision := 2,
       initialized := true : Money }).Equals (NewUSD 10099) = true := by
  have h := claim_c1_roundtrip (NewUSD 10099) rfl (by decide) (by decide)
    (by decide) (by decide) (by decide) (by decide) (Or.inr (by decide))
  exact h

end Pocket
